import Mathlib

/-!
Verification of the duplicate-file detection engine of the `lume` repository.

The engine lives in `pkg/scanner` (the duplicate scanner file): a
`DuplicateScanner` with a three-stage pipeline
(`Scan`, `calculateQuickHash`, `calculateFullHash`), plus the retention
step of `Cleaner.CleanDuplicateFiles` in `pkg/cleaner`.

The filesystem is modelled as the finite sequence of entries that
`filepath.Walk` visits under the scan root, in walk order.  Each entry
records what `lstat` reports for it (its kind, and for symlinks the link
target), the byte content of regular files, the modification time, and
flags for the I/O failures that the code meets (`walkErr`: the walk
callback is handed a non-nil error for this entry; `openFails`: `os.Open`
on this path fails; `statFails`: `os.Stat` on this path fails).

Go specifics that the model mirrors faithfully:
* `filepath.Walk` uses `lstat`, so for a symlink the callback sees the
  link itself: `info.IsDir()` is `false` and `info.Size()` is the length
  of the target path string.  The walker does not descend through
  symlinks, but the link entry itself is visited.
* `os.Open` and `os.Stat` follow symlinks to their target.
* The SHA-256 digest is abstracted as a parameter `H` on byte lists;
  the claims about content equality take its injectivity as an explicit
  hypothesis (a collision-free digest), exactly the modelling licensed
  by the specification.
* `sort.Slice` guarantees only that the result is a permutation of the
  input that is sorted with respect to the comparator; it is explicitly
  not guaranteed to be stable.  Where only membership, counts or
  sortedness matter the model fixes one conforming order
  (`List.insertionSort`); where the choice of conforming order is
  itself at issue (the retention policy) the model quantifies over all
  outputs satisfying the documented contract (`SortSliceOutput`).
* Go map iteration order is randomized; the model fixes a canonical
  order.  No settled claim depends on it.
-/

namespace Lume

/-- Kind of a filesystem entry as reported by `lstat`. -/
inductive FKind where
  | regular
  | directory
  | symlink (target : String)
deriving DecidableEq, Repr

/-- One entry visited by `filepath.Walk`, together with the I/O failure
flags used to model soft per-file errors. -/
structure Entry where
  path : String
  kind : FKind
  content : List Nat
  mtime : Nat
  walkErr : Bool
  openFails : Bool
  statFails : Bool
deriving DecidableEq, Repr

/-- The filesystem under the scan root: the entries in walk order. -/
abbrev FS := List Entry

/-- Look a path up in the filesystem (first match, as the unique entry
for that path once paths are duplicate-free). -/
def findEntry (fs : FS) (p : String) : Option Entry :=
  fs.find? (fun e => e.path = p)

/-- The size `lstat` reports: content length for a regular file, target
string length for a symlink (what `info.Size()` yields in the walk
callback).  Directory sizes are irrelevant: directories are skipped. -/
def lstatSize (e : Entry) : Nat :=
  match e.kind with
  | .regular => e.content.length
  | .symlink t => t.length
  | .directory => 0

/-- Whether `info.IsDir()` holds for the entry (false for symlinks,
because the walk info comes from `lstat`). -/
def isDir (e : Entry) : Bool :=
  match e.kind with
  | .directory => true
  | _ => false

/-- Model of `os.Open` followed by reading the whole stream: follows a
symlink one level to its target; fails when the entry (or its resolved
target) has its open-failure flag set, when the path is a directory, or
when a symlink cannot be resolved to a regular file. -/
def openFile (fs : FS) (p : String) : Option (List Nat) :=
  match findEntry fs p with
  | none => none
  | some e =>
    if e.openFails then none
    else
      match e.kind with
      | .regular => some e.content
      | .directory => none
      | .symlink t =>
        match findEntry fs t with
        | none => none
        | some e2 =>
          if e2.openFails = false ∧ e2.kind = FKind.regular then some e2.content else none

/-- Model of `os.Stat`: follows a symlink to its target and reports the
target's size and modification time. -/
def statFile (fs : FS) (p : String) : Option (Nat × Nat) :=
  match findEntry fs p with
  | none => none
  | some e =>
    if e.statFails then none
    else
      match e.kind with
      | .regular => some (e.content.length, e.mtime)
      | .directory => some (0, e.mtime)
      | .symlink t =>
        match findEntry fs t with
        | none => none
        | some e2 =>
          if e2.statFails = false ∧ e2.kind = FKind.regular
          then some (e2.content.length, e2.mtime) else none

/-- Model of `filepath.Base` for the slash-separated paths used here:
the part of the path after the last slash. -/
def baseName (p : String) : String :=
  String.mk ((p.toList.reverse.takeWhile (fun c => c ≠ '/')).reverse)

/-- The fixed 8 KiB sampling budget of `calculateQuickHash`
(`const chunkSize = 8 * 1024`). -/
def chunkSize : Nat := 8 * 1024

/-- The bytes of the decimal representation of a size, as written by
`fmt.Sprintf` into the quick hash. -/
def sizeDigits (n : Nat) : List Nat :=
  (toString n).toList.map Char.toNat

/-- The exact byte string fed to SHA-256 by `calculateQuickHash`, as a
function of the opened file's content: for `stat.Size() <= chunkSize*2`
the whole content (the `io.Copy` branch, with no size bytes); otherwise
the first 8 KiB, then the last 8 KiB, then the decimal size. -/
def quickSample (c : List Nat) : List Nat :=
  if c.length ≤ 2 * chunkSize then c
  else c.take chunkSize ++ c.drop (c.length - chunkSize) ++ sizeDigits c.length

/-- Model of `calculateQuickHash`: open the path (following symlinks),
then digest the quick sample of the content.  A failed open yields an
error (`none`). -/
def calculateQuickHash (H : List Nat → List Nat) (fs : FS) (p : String) :
    Option (List Nat) :=
  (openFile fs p).map (fun c => H (quickSample c))

/-- Model of `calculateFullHash`: the digest of the entire content of
the opened file. -/
def calculateFullHash (H : List Nat → List Nat) (fs : FS) (p : String) :
    Option (List Nat) :=
  (openFile fs p).map H

/-- Mirror of the Go `FileInfo` struct assembled in stage 3 of `Scan`. -/
structure FileInfo where
  Path : String
  Name : String
  Size : Nat
  Modified : Nat
deriving DecidableEq, Repr

/-- Mirror of the Go `DuplicateGroup` struct. -/
structure DuplicateGroup where
  Hash : List Nat
  Size : Nat
  Files : List FileInfo
deriving DecidableEq, Repr

/-- Stage 1 callback of `Scan`: skip entries whose walk error is
non-nil, directories, and entries below the minimum size; otherwise
record the path with its (lstat) size. -/
def walkStep (minSize : Nat) (e : Entry) : Option (String × Nat) :=
  if e.walkErr then none
  else if isDir e then none
  else if lstatSize e < minSize then none
  else some (e.path, lstatSize e)

/-- Stage 1 of `Scan`: the candidate list the walk accumulates into
`sizeMap`, in walk order. -/
def walkCandidates (minSize : Nat) (fs : FS) : List (String × Nat) :=
  fs.filterMap (walkStep minSize)

/-- How many collected candidates have a given size (the length of the
size bucket `sizeMap[size]`). -/
def sizeCount (cands : List (String × Nat)) (sz : Nat) : Nat :=
  (cands.filter (fun c => c.2 = sz)).length

/-- The candidates forwarded to stage 2: exactly the members of size
buckets with at least two entries. -/
def sizeCandidates (minSize : Nat) (fs : FS) : List (String × Nat) :=
  let cands := walkCandidates minSize fs
  cands.filter (fun c => 2 ≤ sizeCount cands c.2)

/-- One stage-2 job: quick-hash the path and key it by size and digest
(`key := fmt.Sprintf` of the size and the quick hash); a hash error
drops the file. -/
def quickStep (H : List Nat → List Nat) (fs : FS) (c : String × Nat) :
    Option (String × (Nat × List Nat)) :=
  (calculateQuickHash H fs c.1).map (fun h => (c.1, (c.2, h)))

/-- Stage 2 of `Scan`: each surviving candidate with its quick key. -/
def quickPairs (H : List Nat → List Nat) (minSize : Nat) (fs : FS) :
    List (String × (Nat × List Nat)) :=
  (sizeCandidates minSize fs).filterMap (quickStep H fs)

/-- The paths forwarded to stage 3: members of quick-key buckets with at
least two entries (the flattening of `quickDupGroups`). -/
def quickSurvivors (H : List Nat → List Nat) (minSize : Nat) (fs : FS) :
    List String :=
  let qp := quickPairs H minSize fs
  (qp.filter (fun x => 2 ≤ (qp.filter (fun y => y.2 = x.2)).length)).map (fun x => x.1)

/-- One stage-3 job: full-hash the path, re-stat it, and build its
`FileInfo`; an error in either step drops the file. -/
def fullStep (H : List Nat → List Nat) (fs : FS) (p : String) :
    Option (List Nat × FileInfo) :=
  (calculateFullHash H fs p).bind (fun h =>
    (statFile fs p).map (fun si => (h, ⟨p, baseName p, si.1, si.2⟩)))

/-- Stage 3 of `Scan`: the contents of `fullHashMap` as a flat list of
(full hash, file record) pairs. -/
def fullRecords (H : List Nat → List Nat) (minSize : Nat) (fs : FS) :
    List (List Nat × FileInfo) :=
  (quickSurvivors H minSize fs).filterMap (fullStep H fs)

/-- The files recorded under one full hash (`fullHashMap[hash]`). -/
def filesFor (recs : List (List Nat × FileInfo)) (h : List Nat) : List FileInfo :=
  (recs.filter (fun r => r.1 = h)).map (fun r => r.2)

/-- Group building in `Scan`: one `DuplicateGroup` per full hash with
more than one file, carrying the first file's size. -/
def groupsOf (recs : List (List Nat × FileInfo)) : List DuplicateGroup :=
  ((recs.map (fun r => r.1)).dedup).filterMap (fun h =>
    match filesFor recs h with
    | f0 :: f1 :: rest => some ⟨h, f0.Size, f0 :: f1 :: rest⟩
    | _ => none)

/-- Reclaimable bytes of a group: the wasted space
`(len(files) - 1) * size` used as the sort key. -/
def waste (g : DuplicateGroup) : Nat :=
  (g.Files.length - 1) * g.Size

/-- The final sort of `Scan`: descending by wasted space.  `sort.Slice`
promises a sorted permutation; the model fixes insertion sort as one
conforming order. -/
def sortGroups (l : List DuplicateGroup) : List DuplicateGroup :=
  List.insertionSort (fun a b => waste b ≤ waste a) l

/-- The error that `filepath.Walk` returns to `Scan`.  The walk callback
returns nil for every entry, including the one invocation made with a
non-nil error when the root itself cannot be lstat-ed, so the walk's
result is always nil. -/
def walkResult (_fs : FS) (_rootErr : Bool) : Option String :=
  none

/-- Model of `DuplicateScanner.Scan`.  `rootErr` models a root that
cannot be read at all: the walk then visits no entry (beyond the nil
callback invocation) and the pipeline runs on an empty candidate set. -/
def Scan (H : List Nat → List Nat) (minSize : Nat) (fs : FS) (rootErr : Bool) :
    List DuplicateGroup × Option String :=
  match walkResult fs rootErr with
  | some e => ([], some e)
  | none =>
    let walked : FS := if rootErr then [] else fs
    (sortGroups (groupsOf (fullRecords H minSize walked)), none)

/-- Mirror of the Go `DuplicateScanner` struct. -/
structure DuplicateScanner where
  rootPath : String
  minSize : Nat
deriving DecidableEq, Repr

/-- Mirror of `NewDuplicateScanner`: default minimum size 1024 bytes. -/
def NewDuplicateScanner (rootPath : String) : DuplicateScanner :=
  ⟨rootPath, 1024⟩

/-- Mirror of `SetMinSize`. -/
def SetMinSize (s : DuplicateScanner) (size : Nat) : DuplicateScanner :=
  { s with minSize := size }

/-- Running `Scan` on a configured scanner. -/
def DuplicateScanner.scan (s : DuplicateScanner) (H : List Nat → List Nat)
    (fs : FS) (rootErr : Bool) : List DuplicateGroup × Option String :=
  Scan H s.minSize fs rootErr

/-- Mirror of `GetDuplicateTotalSize`. -/
def GetDuplicateTotalSize (groups : List DuplicateGroup) : Nat :=
  groups.foldl (fun acc g => acc + (g.Files.length - 1) * g.Size) 0

/-- The comparator passed to `sort.Slice` inside
`Cleaner.CleanDuplicateFiles`: strictly later modification time first
when keeping the newest, strictly earlier first otherwise. -/
def cleanLess (keepNewest : Bool) (a b : FileInfo) : Bool :=
  if keepNewest then decide (b.Modified < a.Modified)
  else decide (a.Modified < b.Modified)

/-- The documented contract of Go `sort.Slice`: the output is a
permutation of the input in which no later element is strictly less than
an earlier one.  Stability is explicitly not guaranteed. -/
def SortSliceOutput (less : FileInfo → FileInfo → Bool)
    (input output : List FileInfo) : Prop :=
  output.Perm input ∧ output.Pairwise (fun a b => less b a = false)

/-- The retention selection of `CleanDuplicateFiles`: after the in-place
sort, the file at index 0 is kept and all others are deleted. -/
def retentionKept (sortedFiles : List FileInfo) : Option FileInfo :=
  sortedFiles.head?

/-- The deletion candidates of `CleanDuplicateFiles`: everything past
index 0 after the in-place sort. -/
def retentionDeleted (sortedFiles : List FileInfo) : List FileInfo :=
  sortedFiles.tail

/-- Modelled from the spec (section 4.3), for comparison with the code's
`quickSample`: a digest input consisting of the size value, plus up to
one 8 KiB budget from the start, plus up to the same budget from the
end, the whole file being read once when it is smaller than twice the
budget. -/
def specQuickSample (c : List Nat) : List Nat :=
  if c.length ≤ 2 * chunkSize then sizeDigits c.length ++ c
  else sizeDigits c.length ++ c.take chunkSize ++ c.drop (c.length - chunkSize)

/-! Infrastructure lemmas about the pipeline stages. -/

/-- A `filterMap` whose step preserves a projection yields a sublist of
the projected input. -/
theorem map_filterMap_sublist {α β γ : Type} (F : α → Option β) (pa : α → γ)
    (pb : β → γ) (hF : ∀ a b, F a = some b → pb b = pa a) :
    ∀ l : List α, ((l.filterMap F).map pb).Sublist (l.map pa) := by
  intro l
  induction l with
  | nil => simp
  | cons a l ih =>
    rcases hFa : F a with _ | b
    · simpa [List.filterMap_cons, hFa] using ih.cons (pa a)
    · simpa [List.filterMap_cons, hFa, hF a b hFa] using ih.cons₂ (pa a)

/-- A list containing two distinct elements has length at least two. -/
theorem two_le_length_of_mem_ne {α : Type} {l : List α} {a b : α}
    (ha : a ∈ l) (hb : b ∈ l) (hne : a ≠ b) : 2 ≤ l.length := by
  obtain ⟨s, t, rfl⟩ := List.append_of_mem ha
  rcases List.mem_append.1 hb with hs | hat
  · have : 0 < s.length := List.length_pos.2 (by rintro rfl; simp at hs)
    simp only [List.length_append, List.length_cons]
    omega
  · rcases List.mem_cons.1 hat with rfl | ht
    · exact absurd rfl hne
    · have : 0 < t.length := List.length_pos.2 (by rintro rfl; simp at ht)
      simp only [List.length_append, List.length_cons]
      omega

/-- Characterization of stage-1 membership. -/
theorem mem_walkCandidates {minSize : Nat} {fs : FS} {p : String} {n : Nat} :
    (p, n) ∈ walkCandidates minSize fs ↔
      ∃ e ∈ fs, e.path = p ∧ e.walkErr = false ∧ isDir e = false ∧
        minSize ≤ lstatSize e ∧ n = lstatSize e := by
  simp only [walkCandidates, List.mem_filterMap, walkStep]
  constructor
  · rintro ⟨e, he, hstep⟩
    by_cases hw : e.walkErr <;> simp [hw] at hstep
    by_cases hd : isDir e <;> simp [hd] at hstep
    exact ⟨e, he, hstep.2.1, by simpa using hw, by simpa using hd, hstep.1, hstep.2.2.symm⟩
  · rintro ⟨e, he, rfl, hw, hd, hs, rfl⟩
    exact ⟨e, he, by simp [hw, hd, Nat.not_lt.2 hs]⟩

/-- With duplicate-free paths, looking up a member's path finds exactly
that member. -/
theorem findEntry_eq_of_nodup {fs : FS} {e : Entry}
    (hnd : (fs.map Entry.path).Nodup) (he : e ∈ fs) :
    findEntry fs e.path = some e := by
  induction fs with
  | nil => simp at he
  | cons a l ih =>
    simp only [List.map_cons, List.nodup_cons, List.mem_map] at hnd
    rcases List.mem_cons.1 he with rfl | hl
    · simp [findEntry, List.find?_cons]
    · have hne : (a.path = e.path) = False := by
        simp only [eq_iff_iff, iff_false]
        intro hpe
        exact hnd.1 ⟨e, hl, hpe.symm⟩
      have := ih hnd.2 hl
      simpa [findEntry, List.find?_cons, hne] using this

/-- Opening a healthy regular member with duplicate-free paths returns
its content. -/
theorem openFile_regular {fs : FS} {e : Entry}
    (hnd : (fs.map Entry.path).Nodup) (he : e ∈ fs)
    (hk : e.kind = FKind.regular) (ho : e.openFails = false) :
    openFile fs e.path = some e.content := by
  simp [openFile, findEntry_eq_of_nodup hnd he, hk, ho]

/-- Stat-ing a healthy regular member with duplicate-free paths returns
its size and modification time. -/
theorem statFile_regular {fs : FS} {e : Entry}
    (hnd : (fs.map Entry.path).Nodup) (he : e ∈ fs)
    (hk : e.kind = FKind.regular) (hs : e.statFails = false) :
    statFile fs e.path = some (e.content.length, e.mtime) := by
  simp [statFile, findEntry_eq_of_nodup hnd he, hk, hs]

/-- The stage-1 step only emits the entry's own path. -/
theorem walkStep_path {minSize : Nat} {e : Entry} {b : String × Nat}
    (h : walkStep minSize e = some b) : b.1 = e.path := by
  simp only [walkStep] at h
  split at h
  · exact absurd h (by simp)
  split at h
  · exact absurd h (by simp)
  split at h
  · exact absurd h (by simp)
  injection h with h
  rw [← h]

/-- The stage-2 step only emits the candidate's own path. -/
theorem quickStep_path {H : List Nat → List Nat} {fs : FS}
    {c : String × Nat} {b : String × (Nat × List Nat)}
    (h : quickStep H fs c = some b) : b.1 = c.1 := by
  simp only [quickStep, Option.map_eq_some'] at h
  obtain ⟨hh, _, heq⟩ := h
  rw [← heq]

/-- The stage-3 step only emits the survivor's own path. -/
theorem fullStep_path {H : List Nat → List Nat} {fs : FS}
    {p : String} {r : List Nat × FileInfo}
    (h : fullStep H fs p = some r) : r.2.Path = p := by
  simp only [fullStep, Option.bind_eq_some, Option.map_eq_some'] at h
  obtain ⟨hh, _, si, _, heq⟩ := h
  rw [← heq]

/-- Characterization of stage-2 membership. -/
theorem mem_quickPairs {H : List Nat → List Nat} {minSize : Nat} {fs : FS}
    {p : String} {k : Nat × List Nat} :
    (p, k) ∈ quickPairs H minSize fs ↔
      ∃ sz c, (p, sz) ∈ sizeCandidates minSize fs ∧
        openFile fs p = some c ∧ k = (sz, H (quickSample c)) := by
  simp only [quickPairs, List.mem_filterMap, quickStep, calculateQuickHash,
    Option.map_map, Option.map_eq_some', Function.comp]
  constructor
  · rintro ⟨⟨p1, sz⟩, hmem, c, hc, heq⟩
    obtain ⟨hp, hk⟩ := Prod.mk.injEq .. ▸ heq
    have hp1 : p1 = p := hp
    subst hp1
    exact ⟨sz, c, hmem, hc, hk.symm⟩
  · rintro ⟨sz, c, hmem, hopen, rfl⟩
    exact ⟨(p, sz), hmem, c, hopen, rfl⟩

/-- Characterization of the stage-3 input list. -/
theorem mem_quickSurvivors {H : List Nat → List Nat} {minSize : Nat} {fs : FS}
    {p : String} :
    p ∈ quickSurvivors H minSize fs ↔
      ∃ k, (p, k) ∈ quickPairs H minSize fs ∧
        2 ≤ ((quickPairs H minSize fs).filter
              (fun y => y.2 = k)).length := by
  simp only [quickSurvivors, List.mem_map, List.mem_filter, decide_eq_true_eq]
  constructor
  · rintro ⟨⟨p1, k⟩, ⟨hmem, hcnt⟩, rfl⟩
    exact ⟨k, hmem, hcnt⟩
  · rintro ⟨k, hmem, hcnt⟩
    exact ⟨(p, k), ⟨hmem, hcnt⟩, rfl⟩

/-- Characterization of stage-3 membership. -/
theorem mem_fullRecords {H : List Nat → List Nat} {minSize : Nat} {fs : FS}
    {r : List Nat × FileInfo} :
    r ∈ fullRecords H minSize fs ↔
      ∃ p, p ∈ quickSurvivors H minSize fs ∧
        ∃ c si, openFile fs p = some c ∧ statFile fs p = some si ∧
          r = (H c, ⟨p, baseName p, si.1, si.2⟩) := by
  simp only [fullRecords, List.mem_filterMap, fullStep, calculateFullHash,
    Option.bind_eq_some, Option.map_eq_some']
  constructor
  · rintro ⟨p, hp, h, ⟨c, hc, hH⟩, si, hsi, heq⟩
    exact ⟨p, hp, c, si, hc, hsi, by rw [← heq, ← hH]⟩
  · rintro ⟨p, hp, c, si, hc, hsi, rfl⟩
    exact ⟨p, hp, H c, ⟨c, hc, rfl⟩, si, hsi, rfl⟩

/-- Membership in one hash bucket of `fullHashMap`. -/
theorem mem_filesFor {recs : List (List Nat × FileInfo)} {h : List Nat}
    {fi : FileInfo} :
    fi ∈ filesFor recs h ↔ ∃ r ∈ recs, r.1 = h ∧ r.2 = fi := by
  simp only [filesFor, List.mem_map, List.mem_filter, decide_eq_true_eq]
  constructor
  · rintro ⟨r, ⟨hr, hh⟩, rfl⟩
    exact ⟨r, hr, hh, rfl⟩
  · rintro ⟨r, hr, hh, rfl⟩
    exact ⟨r, ⟨hr, hh⟩, rfl⟩

/-- With duplicate-free filesystem paths, the stage-3 record list has
duplicate-free paths as well: every path is hashed at most once. -/
theorem nodup_fullRecords_paths {H : List Nat → List Nat} {minSize : Nat}
    {fs : FS} (hnd : (fs.map Entry.path).Nodup) :
    ((fullRecords H minSize fs).map (fun r => r.2.Path)).Nodup := by
  have s1 : ((walkCandidates minSize fs).map (fun c => c.1)).Sublist
      (fs.map Entry.path) :=
    map_filterMap_sublist _ _ _ (fun _ _ h => walkStep_path h) fs
  have s2 : ((sizeCandidates minSize fs).map (fun c => c.1)).Sublist
      ((walkCandidates minSize fs).map (fun c => c.1)) :=
    (List.filter_sublist _).map _
  have s3 : ((quickPairs H minSize fs).map (fun c => c.1)).Sublist
      ((sizeCandidates minSize fs).map (fun c => c.1)) :=
    map_filterMap_sublist _ _ _ (fun _ _ h => quickStep_path h) _
  have s4 : (quickSurvivors H minSize fs).Sublist
      ((quickPairs H minSize fs).map (fun c => c.1)) :=
    (List.filter_sublist _).map _
  have s5 : ((fullRecords H minSize fs).map (fun r => r.2.Path)).Sublist
      (quickSurvivors H minSize fs) := by
    have := map_filterMap_sublist (fullStep H fs) id (fun r => r.2.Path)
      (fun _ _ h => fullStep_path h) (quickSurvivors H minSize fs)
    simpa [fullRecords] using this
  exact ((((s5.trans s4).trans s3).trans s2).trans s1).nodup hnd

/-- With duplicate-free filesystem paths, a path determines its stage-3
record uniquely. -/
theorem fullRecords_path_inj {H : List Nat → List Nat} {minSize : Nat}
    {fs : FS} (hnd : (fs.map Entry.path).Nodup)
    {r r1 : List Nat × FileInfo} (hr : r ∈ fullRecords H minSize fs)
    (hr1 : r1 ∈ fullRecords H minSize fs) (hp : r.2.Path = r1.2.Path) :
    r = r1 :=
  List.inj_on_of_nodup_map (nodup_fullRecords_paths hnd) hr hr1 hp

/-- Every materialized group is the canonical group of its hash: its
file list is the full bucket of that hash, it has at least two members,
and its size is the bucket head's size. -/
theorem groupsOf_mem_elim {recs : List (List Nat × FileInfo)}
    {g : DuplicateGroup} (hg : g ∈ groupsOf recs) :
    g.Hash ∈ recs.map (fun r => r.1) ∧
      ∃ f0 f1 rest, filesFor recs g.Hash = f0 :: f1 :: rest ∧
        g = ⟨g.Hash, f0.Size, f0 :: f1 :: rest⟩ := by
  simp only [groupsOf, List.mem_filterMap, List.mem_dedup] at hg
  obtain ⟨h, hh, hmatch⟩ := hg
  rcases hff : filesFor recs h with _ | ⟨f0, _ | ⟨f1, rest⟩⟩ <;>
    rw [hff] at hmatch
  · exact absurd hmatch (by simp)
  · exact absurd hmatch (by simp)
  · injection hmatch with hmatch
    subst hmatch
    exact ⟨hh, f0, f1, rest, hff, rfl⟩

/-- Two materialized groups with the same hash are the same group. -/
theorem groupsOf_hash_inj {recs : List (List Nat × FileInfo)}
    {g g1 : DuplicateGroup} (hg : g ∈ groupsOf recs)
    (hg1 : g1 ∈ groupsOf recs) (hh : g.Hash = g1.Hash) : g = g1 := by
  obtain ⟨-, f0, f1, rest, hff, hgeq⟩ := groupsOf_mem_elim hg
  obtain ⟨-, k0, k1, krest, kff, hgeq1⟩ := groupsOf_mem_elim hg1
  rw [hh] at hff
  rw [hff] at kff
  injection kff with e0 etail
  injection etail with e1 erest
  rw [hgeq, hgeq1, hh, e0, e1, erest]

/-- A hash whose bucket has at least two files yields its canonical
group. -/
theorem groupsOf_mem_intro {recs : List (List Nat × FileInfo)} {h : List Nat}
    (hh : h ∈ recs.map (fun r => r.1)) {f0 f1 : FileInfo} {rest : List FileInfo}
    (hff : filesFor recs h = f0 :: f1 :: rest) :
    (⟨h, f0.Size, f0 :: f1 :: rest⟩ : DuplicateGroup) ∈ groupsOf recs := by
  simp only [groupsOf, List.mem_filterMap]
  exact ⟨h, List.mem_dedup.2 hh, by rw [hff]⟩

/-- The group list is duplicate-free (one group per hash). -/
theorem groupsOf_nodup (recs : List (List Nat × FileInfo)) :
    (groupsOf recs).Nodup := by
  have hsub : ((groupsOf recs).map (fun g => g.Hash)).Sublist
      ((recs.map (fun r => r.1)).dedup) := by
    have hF : ∀ (h : List Nat) (g : DuplicateGroup),
        (match filesFor recs h with
          | f0 :: f1 :: rest => some ⟨h, f0.Size, f0 :: f1 :: rest⟩
          | _ => none) = some g → g.Hash = h := by
      intro h g hg
      rcases hff : filesFor recs h with _ | ⟨f0, _ | ⟨f1, rest⟩⟩ <;>
        rw [hff] at hg
      · exact absurd hg (by simp)
      · exact absurd hg (by simp)
      · injection hg with hg
        rw [← hg]
    have := map_filterMap_sublist _ id (fun g : DuplicateGroup => g.Hash) hF
      ((recs.map (fun r => r.1)).dedup)
    simpa [groupsOf] using this
  exact ((List.nodup_dedup _).sublist hsub).of_map

/-- Membership in the result list of `Scan`. -/
theorem mem_scan_fst {H : List Nat → List Nat} {minSize : Nat} {fs : FS}
    {rootErr : Bool} {g : DuplicateGroup} :
    g ∈ (Scan H minSize fs rootErr).1 ↔
      g ∈ groupsOf (fullRecords H minSize (if rootErr then [] else fs)) := by
  simp [Scan, walkResult, sortGroups, List.mem_insertionSort]

/-- The result list of `Scan` is duplicate-free. -/
theorem scan_fst_nodup (H : List Nat → List Nat) (minSize : Nat) (fs : FS)
    (rootErr : Bool) : (Scan H minSize fs rootErr).1.Nodup := by
  have hperm := List.perm_insertionSort
    (fun a b => waste b ≤ waste a)
    (groupsOf (fullRecords H minSize (if rootErr then [] else fs)))
  simpa [Scan, walkResult, sortGroups] using
    hperm.nodup_iff.2 (groupsOf_nodup _)

/-- Scan result membership when the root is readable. -/
theorem mem_scan_fst_false {H : List Nat → List Nat} {minSize : Nat}
    {fs : FS} {g : DuplicateGroup} :
    g ∈ (Scan H minSize fs false).1 ↔
      g ∈ groupsOf (fullRecords H minSize fs) := by
  simpa using (@mem_scan_fst H minSize fs false g)

/-- When the root cannot be read the pipeline runs on no entries. -/
theorem scan_true_empty (H : List Nat → List Nat) (minSize : Nat) (fs : FS) :
    Scan H minSize fs true = ([], none) := rfl

/-- With duplicate-free paths, a path determines its entry uniquely. -/
theorem entry_path_inj {fs : FS} (hnd : (fs.map Entry.path).Nodup)
    {e e1 : Entry} (he : e ∈ fs) (he1 : e1 ∈ fs) (hp : e.path = e1.path) :
    e = e1 :=
  List.inj_on_of_nodup_map hnd he he1 hp

/-- Provenance of every file of every returned group: the scan root was
readable, the file's path was collected at stage 1, it opened
successfully to a content whose digest is the group's hash, and its
recorded size and time come from the stage-3 re-stat. -/
theorem scan_file_provenance {H : List Nat → List Nat} {minSize : Nat}
    {fs : FS} {rootErr : Bool} {g : DuplicateGroup} {fi : FileInfo}
    (hg : g ∈ (Scan H minSize fs rootErr).1) (hfi : fi ∈ g.Files) :
    rootErr = false ∧
      ∃ sz c si, (fi.Path, sz) ∈ walkCandidates minSize fs ∧
        openFile fs fi.Path = some c ∧ statFile fs fi.Path = some si ∧
        H c = g.Hash ∧ fi.Size = si.1 ∧ fi.Modified = si.2 := by
  cases rootErr
  case true =>
    rw [scan_true_empty] at hg
    exact absurd hg (by simp)
  case false =>
  refine ⟨rfl, ?_⟩
  obtain ⟨-, f0, f1, rest, hff, hgeq⟩ :=
    groupsOf_mem_elim (mem_scan_fst_false.1 hg)
  rw [hgeq] at hfi
  simp only at hfi
  rw [← hff] at hfi
  obtain ⟨r, hr, hrh, hrf⟩ := mem_filesFor.1 hfi
  obtain ⟨p, hps, c, si, hopen, hstat, hreq⟩ := mem_fullRecords.1 hr
  obtain ⟨k, hq, -⟩ := mem_quickSurvivors.1 hps
  obtain ⟨sz, c2, hsc, -, -⟩ := mem_quickPairs.1 hq
  have hwalk : (p, sz) ∈ walkCandidates minSize fs := by
    have h2 := hsc
    simp only [sizeCandidates, List.mem_filter, decide_eq_true_eq] at h2
    exact h2.1
  have hfi_eq : fi = (⟨p, baseName p, si.1, si.2⟩ : FileInfo) := by
    rw [← hrf, hreq]
  have hhash : H c = g.Hash := by
    rw [← hrh, hreq]
  subst hfi_eq
  exact ⟨sz, c, si, hwalk, hopen, hstat, hhash, rfl, rfl⟩

/-- C9: no DuplicateGroup returned by Scan has fewer than two files; a
group is only materialized when it has at least two members. -/
theorem scan_min_membership (H : List Nat → List Nat) (minSize : Nat)
    (fs : FS) (rootErr : Bool) :
    ∀ g ∈ (Scan H minSize fs rootErr).1, 2 ≤ g.Files.length := by
  intro g hg
  cases rootErr
  case true =>
    rw [scan_true_empty] at hg
    exact absurd hg (by simp)
  case false =>
  obtain ⟨-, f0, f1, rest, -, hgeq⟩ :=
    groupsOf_mem_elim (mem_scan_fst_false.1 hg)
  rw [hgeq]
  simp only [List.length_cons]
  omega

/-- C6: the group list returned by Scan is sorted by reclaimable bytes,
`(len(files) - 1) * fileSize`, in descending order. -/
theorem scan_sorted_by_waste (H : List Nat → List Nat) (minSize : Nat)
    (fs : FS) (rootErr : Bool) :
    ((Scan H minSize fs rootErr).1).Pairwise
      (fun a b => waste b ≤ waste a) := by
  haveI : IsTotal DuplicateGroup (fun a b => waste b ≤ waste a) :=
    ⟨fun a b => (Nat.le_total (waste b) (waste a))⟩
  haveI : IsTrans DuplicateGroup (fun a b => waste b ≤ waste a) :=
    ⟨fun _ _ _ hab hbc => le_trans hbc hab⟩
  have := List.sorted_insertionSort (fun a b => waste b ≤ waste a)
    (groupsOf (fullRecords H minSize (if rootErr then [] else fs)))
  simpa [Scan, walkResult, sortGroups, List.Sorted] using this

/-- C3: contrary to the specification, a root that cannot be read at all
is not reported as the operation's error result: the walk callback
returns nil for every entry including the error invocation on the root,
so `filepath.Walk` reports nil, the dead error check after the walk
never fires, and `Scan` returns an empty group list with a nil error.
In fact the error result of `Scan` is nil on every input. -/
theorem scan_root_error_swallowed (H : List Nat → List Nat) (minSize : Nat)
    (fs : FS) :
    Scan H minSize fs true = ([], none) ∧
      ∀ rootErr, (Scan H minSize fs rootErr).2 = none := by
  exact ⟨rfl, fun rootErr => by cases rootErr <;> rfl⟩

/-- C1: any two files of one returned DuplicateGroup read back the same
full byte content: each opens successfully to a content whose
full-content digest is the group's hash, and for a collision-free
(injective) digest the two contents coincide. -/
theorem scan_no_false_positives (H : List Nat → List Nat)
    (hH : Function.Injective H) (minSize : Nat) (fs : FS) (rootErr : Bool) :
    ∀ g ∈ (Scan H minSize fs rootErr).1, ∀ a ∈ g.Files, ∀ b ∈ g.Files,
      ∃ c, openFile fs a.Path = some c ∧ openFile fs b.Path = some c ∧
        H c = g.Hash := by
  intro g hg a haf b hbf
  obtain ⟨hroot, -, ca, -, -, hoa, -, hca, -, -⟩ := scan_file_provenance hg haf
  obtain ⟨-, -, cb, -, -, hob, -, hcb, -, -⟩ := scan_file_provenance hg hbf
  have hcc : ca = cb := hH (by rw [hca, hcb])
  exact ⟨ca, hoa, by rw [hcc]; exact hob, hca⟩

/-- C10: a scanner built by `NewDuplicateScanner` (with `SetMinSize`
never called) carries the default minimum size of 1024 bytes, and every
entry whose walk-reported size is below 1024 bytes is excluded from
candidacy and from every returned group. -/
theorem default_min_size_excludes_small (rootPath : String)
    (H : List Nat → List Nat) (fs : FS) (rootErr : Bool)
    (hnd : (fs.map Entry.path).Nodup) (e : Entry) (he : e ∈ fs)
    (hsmall : lstatSize e < 1024) :
    (NewDuplicateScanner rootPath).minSize = 1024 ∧
      e.path ∉ (walkCandidates (NewDuplicateScanner rootPath).minSize fs).map
        (fun c => c.1) ∧
      ∀ g ∈ ((NewDuplicateScanner rootPath).scan H fs rootErr).1,
        ∀ fi ∈ g.Files, fi.Path ≠ e.path := by
  have hnot : e.path ∉ (walkCandidates (NewDuplicateScanner rootPath).minSize
      fs).map (fun c => c.1) := by
    intro hmem
    simp only [List.mem_map] at hmem
    obtain ⟨⟨p, n⟩, hpm, hpp⟩ := hmem
    obtain ⟨e1, he1, hpath, -, -, hsz, -⟩ := mem_walkCandidates.1 hpm
    have hpe : e1.path = e.path := by
      rw [hpath]
      exact hpp
    have : e1 = e := entry_path_inj hnd he1 he hpe
    subst this
    simp only [NewDuplicateScanner] at hsz
    omega
  refine ⟨rfl, hnot, ?_⟩
  intro g hg fi hfi hpe
  obtain ⟨-, sz, c, si, hwalk, -, -, -, -, -⟩ := scan_file_provenance hg hfi
  exact hnot (by
    rw [← hpe]
    exact List.mem_map.2 ⟨(fi.Path, sz), hwalk, rfl⟩)

/-- Concrete fixtures: two identical readable 2-byte files, a file whose
open fails, a tiny file, and a symlink scenario. -/
def wA : Entry := ⟨"a.txt", FKind.regular, [7, 7], 10, false, false, false⟩

/-- Second identical witness file. -/
def wB : Entry := ⟨"b.txt", FKind.regular, [7, 7], 20, false, false, false⟩

/-- A file on which `os.Open` fails (soft per-file error). -/
def wBad : Entry := ⟨"c.txt", FKind.regular, [1, 2], 5, false, true, false⟩

/-- A 1-byte file, below the default minimum size. -/
def wSmall : Entry := ⟨"s.txt", FKind.regular, [1], 7, false, false, false⟩

/-- Witness filesystem with just the duplicate pair. -/
def wfsDup : FS := [wA, wB]

/-- Witness filesystem with the duplicate pair and the failing file. -/
def wfsBad : FS := [wA, wB, wBad]

/-- Witness filesystem with the duplicate pair and a tiny file. -/
def wfsSmall : FS := [wA, wB, wSmall]

/-- C10 witness at a concrete input. -/
theorem default_min_size_excludes_small_witness :
    ((wfsSmall.map Entry.path).Nodup ∧ wSmall ∈ wfsSmall ∧
        lstatSize wSmall < 1024) ∧
      ((NewDuplicateScanner "/tmp").minSize = 1024 ∧
        wSmall.path ∉ (walkCandidates (NewDuplicateScanner "/tmp").minSize
          wfsSmall).map (fun c => c.1) ∧
        ∀ g ∈ ((NewDuplicateScanner "/tmp").scan (fun l => l) wfsSmall
            false).1, ∀ fi ∈ g.Files, fi.Path ≠ wSmall.path) :=
  ⟨by decide, default_min_size_excludes_small "/tmp" (fun l => l) wfsSmall
    false (by decide) wSmall (by decide) (by decide)⟩

/-- C4 (amended): a per-file open failure during the hashing stages
drops exactly that file — its path appears in no returned group — and
the scan still completes; but nothing is surfaced to the caller: the
error result of the scan is nil. -/
theorem soft_error_drops_only_failing_file (H : List Nat → List Nat)
    (minSize : Nat) (fs : FS) (rootErr : Bool)
    (hnd : (fs.map Entry.path).Nodup) (e : Entry) (he : e ∈ fs)
    (hfail : e.openFails = true ∨ e.statFails = true) :
    (Scan H minSize fs rootErr).2 = none ∧
      ∀ g ∈ (Scan H minSize fs rootErr).1, ∀ fi ∈ g.Files,
        fi.Path ≠ e.path := by
  refine ⟨by cases rootErr <;> rfl, ?_⟩
  intro g hg fi hfi hpe
  obtain ⟨-, sz, c, si, -, hopen, hstat, -, -, -⟩ :=
    scan_file_provenance hg hfi
  rw [hpe] at hopen hstat
  rcases hfail with hf | hf
  · rw [openFile, findEntry_eq_of_nodup hnd he] at hopen
    simp [hf] at hopen
  · rw [statFile, findEntry_eq_of_nodup hnd he] at hstat
    simp [hf] at hstat

/-- C4 witness at a concrete input. -/
theorem soft_error_drops_only_failing_file_witness :
    ((wfsBad.map Entry.path).Nodup ∧ wBad ∈ wfsBad ∧
        (wBad.openFails = true ∨ wBad.statFails = true)) ∧
      ((Scan (fun l => l) 1 wfsBad false).2 = none ∧
        ∀ g ∈ (Scan (fun l => l) 1 wfsBad false).1, ∀ fi ∈ g.Files,
          fi.Path ≠ wBad.path) :=
  ⟨by decide, soft_error_drops_only_failing_file (fun l => l) 1 wfsBad false
    (by decide) wBad (by decide) (Or.inl rfl)⟩

/-- C4 counterexample: no collected error list is surfaced to the
caller.  On a filesystem holding a failing file next to two duplicates,
the whole result of `Scan` (groups and error value alike) is identical
to the result on the same filesystem with the failing file absent, and
the error value is nil — the caller cannot learn that a soft error
occurred, contradicting the claimed aggregated error/warning list. -/
theorem soft_error_not_surfaced_counterexample :
    wBad ∈ wfsBad ∧ wBad.openFails = true ∧
      Scan (fun l => l) 1 wfsBad false = Scan (fun l => l) 1 wfsDup false ∧
      (Scan (fun l => l) 1 wfsBad false).2 = none := by
  decide

/-- C1 witness at a concrete input, with the identity as an injective
digest. -/
theorem scan_no_false_positives_witness :
    Function.Injective (fun l : List Nat => l) ∧
      ∀ g ∈ (Scan (fun l => l) 1 wfsDup false).1, ∀ a ∈ g.Files,
        ∀ b ∈ g.Files, ∃ c, openFile wfsDup a.Path = some c ∧
          openFile wfsDup b.Path = some c ∧ (fun l : List Nat => l) c = g.Hash :=
  ⟨fun _ _ h => h,
    scan_no_false_positives (fun l => l) (fun _ _ h => h) 1 wfsDup false⟩

/-- C7 counterexample: for a file smaller than twice the budget the byte
string actually digested by `calculateQuickHash` is the bare content —
the size value is not part of the digest input, unlike the composition
stated in the claim (modelled verbatim by `specQuickSample`). -/
theorem quick_digest_spec_mismatch :
    quickSample [1, 2, 3] = [1, 2, 3] ∧
      specQuickSample [1, 2, 3] ≠ [1, 2, 3] := by
  constructor
  · decide
  · decide

/-- C7 (amended): for every stage-2 candidate the quick key pairs the
walk-reported size with the digest of `quickSample` of the opened
content; for contents of at most twice the 8 KiB budget the digest
input is exactly the whole content read once (with no size component),
and otherwise it is the first 8 KiB, then the last 8 KiB, then the
decimal size value, each sample bounded by the budget. -/
theorem quick_digest_composition (H : List Nat → List Nat) (minSize : Nat)
    (fs : FS) (p : String) (k : Nat × List Nat)
    (hmem : (p, k) ∈ quickPairs H minSize fs) :
    ∃ sz c, (p, sz) ∈ sizeCandidates minSize fs ∧ openFile fs p = some c ∧
      k = (sz, H (quickSample c)) ∧
      (c.length ≤ 2 * chunkSize → quickSample c = c) ∧
      (2 * chunkSize < c.length →
        quickSample c =
          c.take chunkSize ++ c.drop (c.length - chunkSize) ++
            sizeDigits c.length ∧
        (c.take chunkSize).length = chunkSize ∧
        (c.drop (c.length - chunkSize)).length = chunkSize) := by
  obtain ⟨sz, c, hmem2, hopen, hk⟩ := mem_quickPairs.1 hmem
  refine ⟨sz, c, hmem2, hopen, hk, ?_, ?_⟩
  · intro hle
    simp [quickSample, hle]
  · intro hlt
    have hnle : ¬ c.length ≤ 2 * chunkSize := by omega
    refine ⟨by simp [quickSample, hnle], ?_, ?_⟩
    · rw [List.length_take]
      exact Nat.min_eq_left (by omega)
    · rw [List.length_drop]
      omega

/-- C7 witness at a concrete input. -/
theorem quick_digest_composition_witness :
    (("a.txt", ((2 : Nat), [7, 7])) ∈ quickPairs (fun l => l) 1 wfsDup) ∧
      (∃ sz c, ("a.txt", sz) ∈ sizeCandidates 1 wfsDup ∧
        openFile wfsDup "a.txt" = some c ∧
        ((2 : Nat), [7, 7]) = (sz, (fun l : List Nat => l) (quickSample c)) ∧
        (c.length ≤ 2 * chunkSize → quickSample c = c) ∧
        (2 * chunkSize < c.length →
          quickSample c =
            c.take chunkSize ++ c.drop (c.length - chunkSize) ++
              sizeDigits c.length ∧
          (c.take chunkSize).length = chunkSize ∧
          (c.drop (c.length - chunkSize)).length = chunkSize)) :=
  ⟨by decide, quick_digest_composition (fun l => l) 1 wfsDup "a.txt"
    (2, [7, 7]) (by decide)⟩

instance (less : FileInfo → FileInfo → Bool) (i o : List FileInfo) :
    Decidable (SortSliceOutput less i o) := by
  unfold SortSliceOutput
  infer_instance

/-- Two files with identical modification times (a retention tie). -/
def tieA : FileInfo := ⟨"a.txt", "a.txt", 2048, 100⟩

/-- The other half of the tie. -/
def tieB : FileInfo := ⟨"b.txt", "b.txt", 2048, 100⟩

/-- C5 counterexample: the sort that `CleanDuplicateFiles` runs is
`sort.Slice`, whose contract does not promise stability.  On a group of
two files with equal modification times both orders satisfy the
contract, and they keep different files, so the selection is neither
stable in discovery order nor determined by the contract across runs. -/
theorem retention_tie_counterexample :
    SortSliceOutput (cleanLess true) [tieA, tieB] [tieA, tieB] ∧
      SortSliceOutput (cleanLess true) [tieA, tieB] [tieB, tieA] ∧
      tieA.Modified = tieB.Modified ∧ tieA ≠ tieB ∧
      retentionKept [tieA, tieB] ≠ retentionKept [tieB, tieA] ∧
      ¬ (∀ out1 out2 : List FileInfo,
          SortSliceOutput (cleanLess true) [tieA, tieB] out1 →
          SortSliceOutput (cleanLess true) [tieA, tieB] out2 →
          retentionKept out1 = retentionKept out2) := by
  refine ⟨by decide, by decide, by decide, by decide, by decide, fun hall => ?_⟩
  have h := hall [tieA, tieB] [tieB, tieA] (by decide) (by decide)
  exact absurd h (by decide)

/-- C5 (amended): for every output that the `sort.Slice` contract
permits, the kept file (index 0 after sorting) is one of the group's
files and carries the maximal modification time when `keepNewest` is
set, the minimal one otherwise; consequently, when no two files of the
group share a modification time, every two contract-conforming runs
keep the same file.  Ties may be broken differently by different
conforming orders. -/
theorem retention_selection_amended (keepNewest : Bool)
    (files out1 out2 : List FileInfo)
    (h1 : SortSliceOutput (cleanLess keepNewest) files out1)
    (h2 : SortSliceOutput (cleanLess keepNewest) files out2) :
    (∀ k, retentionKept out1 = some k → k ∈ files ∧
      ∀ f ∈ files, (keepNewest = true → f.Modified ≤ k.Modified) ∧
        (keepNewest = false → k.Modified ≤ f.Modified)) ∧
    ((files.map FileInfo.Modified).Nodup →
      retentionKept out1 = retentionKept out2) := by
  have extremal : ∀ (out : List FileInfo),
      SortSliceOutput (cleanLess keepNewest) files out →
      ∀ k, retentionKept out = some k → k ∈ files ∧
        ∀ f ∈ files, (keepNewest = true → f.Modified ≤ k.Modified) ∧
          (keepNewest = false → k.Modified ≤ f.Modified) := by
    intro out hout k hk
    obtain ⟨hperm, hpw⟩ := hout
    rcases out with _ | ⟨k0, t⟩
    · exact absurd hk (by simp [retentionKept])
    have hk0 : k0 = k := by
      simpa [retentionKept] using hk
    subst hk0
    refine ⟨hperm.subset (List.mem_cons_self _ _), ?_⟩
    intro f hf
    have hfout : f ∈ k0 :: t := hperm.symm.subset hf
    rcases List.mem_cons.1 hfout with rfl | hft
    · exact ⟨fun _ => le_refl _, fun _ => le_refl _⟩
    · have hrel : cleanLess keepNewest f k0 = false :=
        List.rel_of_pairwise_cons hpw hft
      cases keepNewest
      · have hle : k0.Modified ≤ f.Modified := by
          simp [cleanLess] at hrel
          omega
        exact ⟨fun h => by simp at h, fun _ => hle⟩
      · have hle : f.Modified ≤ k0.Modified := by
          simp [cleanLess] at hrel
          omega
        exact ⟨fun _ => hle, fun h => by simp at h⟩
  refine ⟨extremal out1 h1, ?_⟩
  intro hnd
  rcases out1 with _ | ⟨k1, t1⟩
  · have hfe : files = [] := List.perm_nil.1 h1.1.symm
    have hout2 : out2 = [] := List.perm_nil.1 (hfe ▸ h2.1)
    rw [hout2]
  · rcases out2 with _ | ⟨k2, t2⟩
    · have hfe : files = [] := List.perm_nil.1 h2.1.symm
      have : (k1 :: t1) = [] := List.perm_nil.1 (hfe ▸ h1.1)
      exact absurd this (by simp)
    · have hh1 : retentionKept (k1 :: t1) = some k1 := rfl
      have hh2 : retentionKept (k2 :: t2) = some k2 := rfl
      obtain ⟨hk1m, hk1b⟩ := extremal _ h1 k1 hh1
      obtain ⟨hk2m, hk2b⟩ := extremal _ h2 k2 hh2
      have h12 : k1.Modified = k2.Modified := by
        obtain ⟨b1, b2⟩ := hk1b k2 hk2m
        obtain ⟨c1, c2⟩ := hk2b k1 hk1m
        cases keepNewest
        · exact le_antisymm (b2 rfl) (c2 rfl)
        · exact le_antisymm (c1 rfl) (b1 rfl)
      have hk12 : k1 = k2 :=
        List.inj_on_of_nodup_map hnd hk1m hk2m h12
      rw [hh1, hh2, hk12]

/-- An older witness file for the retention claim. -/
def fOld : FileInfo := ⟨"old.txt", "old.txt", 2048, 1⟩

/-- A newer witness file for the retention claim. -/
def fNew : FileInfo := ⟨"new.txt", "new.txt", 2048, 2⟩

/-- C5 witness at a concrete input with distinct modification times. -/
theorem retention_selection_amended_witness :
    (SortSliceOutput (cleanLess true) [fOld, fNew] [fNew, fOld] ∧
        ([fOld, fNew].map FileInfo.Modified).Nodup) ∧
      ((∀ k, retentionKept [fNew, fOld] = some k → k ∈ [fOld, fNew] ∧
          ∀ f ∈ [fOld, fNew], (true = true → f.Modified ≤ k.Modified) ∧
            (true = false → k.Modified ≤ f.Modified)) ∧
        (([fOld, fNew].map FileInfo.Modified).Nodup →
          retentionKept [fNew, fOld] = retentionKept [fNew, fOld])) :=
  ⟨by decide, retention_selection_amended true [fOld, fNew] [fNew, fOld]
    [fNew, fOld] (by decide) (by decide)⟩

/-- A regular file whose path doubles as a symlink target. -/
def linkTarget : Entry := ⟨"abc", FKind.regular, [7, 7, 7], 10, false, false, false⟩

/-- A second regular file with the same content. -/
def linkPeer : Entry := ⟨"bcd", FKind.regular, [7, 7, 7], 20, false, false, false⟩

/-- A symlink to `linkTarget`; its lstat size is the length of the
target string, 3 bytes. -/
def linkEntry : Entry := ⟨"ln", FKind.symlink "abc", [], 30, false, false, false⟩

/-- Filesystem exhibiting the symlink defect. -/
def fsLink : FS := [linkTarget, linkPeer, linkEntry]

/-- C8: contrary to the specification, a symlink can be counted as a
candidate and end up inside a returned DuplicateGroup.  The walk
callback checks only `IsDir` and the lstat size, so a symlink whose
target-string length passes the minimum size becomes a candidate, and
the hashing stages then follow the link via `os.Open`.  Scanning a root
with two identical 3-byte files and a symlink to one of them (minimum
size set to 1) returns a group that contains the symlink's path. -/
theorem symlink_counted_in_group :
    linkEntry ∈ fsLink ∧ linkEntry.kind = FKind.symlink "abc" ∧
      ∃ g ∈ ((SetMinSize (NewDuplicateScanner "/tmp") 1).scan (fun l => l)
          fsLink false).1, ∃ fi ∈ g.Files, fi.Path = linkEntry.path := by
  decide

/-- C2: two distinct, healthy regular files with identical content of
at least the minimum size appear together in exactly one returned
DuplicateGroup: one group contains both paths, it occurs exactly once in
the result list, and any returned group containing either path is that
group. -/
theorem scan_no_false_negatives (H : List Nat → List Nat) (minSize : Nat)
    (fs : FS) (ea eb : Entry)
    (hnd : (fs.map Entry.path).Nodup)
    (ha : ea ∈ fs) (hb : eb ∈ fs) (hne : ea.path ≠ eb.path)
    (hka : ea.kind = FKind.regular) (hkb : eb.kind = FKind.regular)
    (hwa : ea.walkErr = false) (hwb : eb.walkErr = false)
    (hoa : ea.openFails = false) (hob : eb.openFails = false)
    (hsa : ea.statFails = false) (hsb : eb.statFails = false)
    (hcont : ea.content = eb.content)
    (hmin : minSize ≤ ea.content.length) :
    ∃ g ∈ (Scan H minSize fs false).1,
      (∃ a ∈ g.Files, a.Path = ea.path) ∧
      (∃ b ∈ g.Files, b.Path = eb.path) ∧
      (Scan H minSize fs false).1.count g = 1 ∧
      ∀ g1 ∈ (Scan H minSize fs false).1,
        (∃ fi ∈ g1.Files, fi.Path = ea.path ∨ fi.Path = eb.path) →
          g1 = g := by
  have hLb : eb.content.length = ea.content.length := by rw [hcont]
  have hla : lstatSize ea = ea.content.length := by simp [lstatSize, hka]
  have hlb : lstatSize eb = ea.content.length := by simp [lstatSize, hkb, hLb]
  have hwalka : (ea.path, ea.content.length) ∈ walkCandidates minSize fs :=
    mem_walkCandidates.2 ⟨ea, ha, rfl, hwa, by simp [isDir, hka],
      by rw [hla]; exact hmin, hla.symm⟩
  have hwalkb : (eb.path, ea.content.length) ∈ walkCandidates minSize fs :=
    mem_walkCandidates.2 ⟨eb, hb, rfl, hwb, by simp [isDir, hkb],
      by rw [hlb]; exact hmin, hlb.symm⟩
  have hsc2 : 2 ≤ sizeCount (walkCandidates minSize fs) ea.content.length := by
    refine two_le_length_of_mem_ne (a := (ea.path, ea.content.length))
      (b := (eb.path, ea.content.length)) ?_ ?_ (by simp [hne])
    · exact List.mem_filter.2 ⟨hwalka, by simp⟩
    · exact List.mem_filter.2 ⟨hwalkb, by simp⟩
  have hsca : (ea.path, ea.content.length) ∈ sizeCandidates minSize fs := by
    simp only [sizeCandidates, List.mem_filter, decide_eq_true_eq]
    exact ⟨hwalka, hsc2⟩
  have hscb : (eb.path, ea.content.length) ∈ sizeCandidates minSize fs := by
    simp only [sizeCandidates, List.mem_filter, decide_eq_true_eq]
    exact ⟨hwalkb, hsc2⟩
  have hopa : openFile fs ea.path = some ea.content :=
    openFile_regular hnd ha hka hoa
  have hopb : openFile fs eb.path = some eb.content :=
    openFile_regular hnd hb hkb hob
  have hqa : (ea.path, (ea.content.length, H (quickSample ea.content))) ∈
      quickPairs H minSize fs :=
    mem_quickPairs.2 ⟨ea.content.length, ea.content, hsca, hopa, rfl⟩
  have hqb : (eb.path, (ea.content.length, H (quickSample ea.content))) ∈
      quickPairs H minSize fs :=
    mem_quickPairs.2 ⟨ea.content.length, eb.content, hscb, hopb,
      by rw [hcont]⟩
  have hqcnt : 2 ≤ ((quickPairs H minSize fs).filter
      (fun y => y.2 = (ea.content.length,
        H (quickSample ea.content)))).length := by
    refine two_le_length_of_mem_ne
      (a := (ea.path, (ea.content.length, H (quickSample ea.content))))
      (b := (eb.path, (ea.content.length, H (quickSample ea.content))))
      ?_ ?_ (by simp [hne])
    · exact List.mem_filter.2 ⟨hqa, by simp⟩
    · exact List.mem_filter.2 ⟨hqb, by simp⟩
  have hsva : ea.path ∈ quickSurvivors H minSize fs :=
    mem_quickSurvivors.2 ⟨_, hqa, hqcnt⟩
  have hsvb : eb.path ∈ quickSurvivors H minSize fs :=
    mem_quickSurvivors.2 ⟨_, hqb, hqcnt⟩
  have hsta : statFile fs ea.path = some (ea.content.length, ea.mtime) :=
    statFile_regular hnd ha hka hsa
  have hstb : statFile fs eb.path = some (ea.content.length, eb.mtime) := by
    rw [← hLb]
    exact statFile_regular hnd hb hkb hsb
  have hra : ((H ea.content, ⟨ea.path, baseName ea.path, ea.content.length,
      ea.mtime⟩) : List Nat × FileInfo) ∈ fullRecords H minSize fs :=
    mem_fullRecords.2 ⟨ea.path, hsva, ea.content,
      (ea.content.length, ea.mtime), hopa, hsta, rfl⟩
  have hrb : ((H ea.content, ⟨eb.path, baseName eb.path, ea.content.length,
      eb.mtime⟩) : List Nat × FileInfo) ∈ fullRecords H minSize fs :=
    mem_fullRecords.2 ⟨eb.path, hsvb, eb.content,
      (ea.content.length, eb.mtime), hopb, hstb, by rw [hcont]⟩
  have hfam : (⟨ea.path, baseName ea.path, ea.content.length, ea.mtime⟩ :
      FileInfo) ∈ filesFor (fullRecords H minSize fs) (H ea.content) :=
    mem_filesFor.2 ⟨_, hra, rfl, rfl⟩
  have hfbm : (⟨eb.path, baseName eb.path, ea.content.length, eb.mtime⟩ :
      FileInfo) ∈ filesFor (fullRecords H minSize fs) (H ea.content) :=
    mem_filesFor.2 ⟨_, hrb, rfl, rfl⟩
  have hlen2 : 2 ≤
      (filesFor (fullRecords H minSize fs) (H ea.content)).length :=
    two_le_length_of_mem_ne hfam hfbm (by simp [hne])
  obtain ⟨f0, f1, rest, hff⟩ : ∃ f0 f1 rest,
      filesFor (fullRecords H minSize fs) (H ea.content) =
        f0 :: f1 :: rest := by
    rcases hxx : filesFor (fullRecords H minSize fs) (H ea.content) with
      _ | ⟨g0, _ | ⟨g1, grest⟩⟩
    · rw [hxx] at hlen2
      simp at hlen2
    · rw [hxx] at hlen2
      simp at hlen2
    · exact ⟨g0, g1, grest, rfl⟩
  have hhm : H ea.content ∈ (fullRecords H minSize fs).map (fun r => r.1) :=
    List.mem_map.2 ⟨_, hra, rfl⟩
  have hgm : (⟨H ea.content, f0.Size, f0 :: f1 :: rest⟩ : DuplicateGroup) ∈
      groupsOf (fullRecords H minSize fs) := groupsOf_mem_intro hhm hff
  refine ⟨⟨H ea.content, f0.Size, f0 :: f1 :: rest⟩,
    mem_scan_fst_false.2 hgm,
    ⟨⟨ea.path, baseName ea.path, ea.content.length, ea.mtime⟩, ?_, rfl⟩,
    ⟨⟨eb.path, baseName eb.path, ea.content.length, eb.mtime⟩, ?_, rfl⟩,
    ?_, ?_⟩
  · show _ ∈ (f0 :: f1 :: rest)
    rw [← hff]
    exact hfam
  · show _ ∈ (f0 :: f1 :: rest)
    rw [← hff]
    exact hfbm
  · exact List.count_eq_one_of_mem (scan_fst_nodup H minSize fs false)
      (mem_scan_fst_false.2 hgm)
  · intro g1 hg1 hex
    obtain ⟨fi, hfig, hpor⟩ := hex
    obtain ⟨-, k0, k1, krest, kff, kgeq⟩ :=
      groupsOf_mem_elim (mem_scan_fst_false.1 hg1)
    rw [kgeq] at hfig
    simp only at hfig
    rw [← kff] at hfig
    obtain ⟨r, hr, hrh, hrf⟩ := mem_filesFor.1 hfig
    have hg1hash : g1.Hash = H ea.content := by
      rcases hpor with hpa | hpb
      · have hreq : r = (H ea.content, ⟨ea.path, baseName ea.path,
            ea.content.length, ea.mtime⟩) :=
          fullRecords_path_inj hnd hr hra (by rw [hrf, hpa])
        rw [← hrh, hreq]
      · have hreq : r = (H ea.content, ⟨eb.path, baseName eb.path,
            ea.content.length, eb.mtime⟩) :=
          fullRecords_path_inj hnd hr hrb (by rw [hrf, hpb])
        rw [← hrh, hreq]
    exact groupsOf_hash_inj (mem_scan_fst_false.1 hg1) hgm hg1hash

/-- C9 witness at a concrete input: the scan of the two-duplicate
filesystem returns a concrete group, and it has at least two files. -/
theorem scan_min_membership_witness :
    ((⟨[7, 7], 2, [⟨"a.txt", "a.txt", 2, 10⟩, ⟨"b.txt", "b.txt", 2, 20⟩]⟩ :
        DuplicateGroup) ∈ (Scan (fun l => l) 1 wfsDup false).1) ∧
      2 ≤ (⟨[7, 7], 2, [⟨"a.txt", "a.txt", 2, 10⟩,
        ⟨"b.txt", "b.txt", 2, 20⟩]⟩ : DuplicateGroup).Files.length :=
  ⟨by decide, scan_min_membership (fun l => l) 1 wfsDup false _ (by decide)⟩

/-- C2 witness at a concrete input. -/
theorem scan_no_false_negatives_witness :
    ((wfsDup.map Entry.path).Nodup ∧ wA ∈ wfsDup ∧ wB ∈ wfsDup ∧
        wA.path ≠ wB.path ∧ wA.content = wB.content ∧
        1 ≤ wA.content.length) ∧
      (∃ g ∈ (Scan (fun l => l) 1 wfsDup false).1,
        (∃ a ∈ g.Files, a.Path = wA.path) ∧
        (∃ b ∈ g.Files, b.Path = wB.path) ∧
        (Scan (fun l => l) 1 wfsDup false).1.count g = 1 ∧
        ∀ g1 ∈ (Scan (fun l => l) 1 wfsDup false).1,
          (∃ fi ∈ g1.Files, fi.Path = wA.path ∨ fi.Path = wB.path) →
            g1 = g) :=
  ⟨by decide, scan_no_false_negatives (fun l => l) 1 wfsDup wA wB
    (by decide) (by decide) (by decide) (by decide) rfl rfl rfl rfl rfl rfl
    rfl rfl rfl (by decide)⟩

end Lume
